import Mathlib

/-!
# Verification of the in-memory search engine (`Search_Engine.py`)

Shallow embedding of the search engine: tokenizer, trie, inverted index,
ranking engine, and word segmenter.  Python dictionaries are modelled as
insertion-ordered association lists (CPython dicts preserve insertion
order); Python sets of document ids are modelled as duplicate-free lists
in insertion order (iteration order of a CPython set is unspecified, only
membership is relied upon by the theorems below except where noted).
`defaultdict(int)` reads are modelled explicitly, including the
key-inserting side effect a read of a missing key performs.
-/

namespace SearchEngineModel

/-! ## Tokenizer (`stopWords`, `to_lower`, `remove_punctuation`, `to_singular`, `tokenize`) -/

/-- The fixed stopword set of `Search_Engine.py`. -/
def stopWords : List String :=
  ["the", "is", "and", "a", "an", "in", "of", "on", "for", "with", "to"]

/-- `to_lower`: Python `str.lower` restricted to ASCII (the corpus and the
regex in `remove_punctuation` are ASCII-only). -/
def to_lower (text : String) : String :=
  ⟨text.data.map Char.toLower⟩

/-- Characters kept by the regex `[^a-zA-Z0-9\s]` substitution: ASCII
letters, digits, and Python `\s` whitespace. -/
def pyKeep (c : Char) : Bool :=
  (('a' ≤ c ∧ c ≤ 'z') ∨ ('A' ≤ c ∧ c ≤ 'Z') ∨ ('0' ≤ c ∧ c ≤ '9')
    ∨ c = ' ' ∨ c = '\t' ∨ c = '\n' ∨ c = '\r' ∨ c = '\x0b' ∨ c = '\x0c')

/-- Python `\s` (ASCII range): the whitespace characters `str.split` splits on. -/
def pySpace (c : Char) : Bool :=
  (c = ' ' ∨ c = '\t' ∨ c = '\n' ∨ c = '\r' ∨ c = '\x0b' ∨ c = '\x0c')

/-- `re.sub(r"[^a-zA-Z0-9\s]", "", text)`. -/
def remove_punctuation (text : String) : String :=
  ⟨text.data.filter pyKeep⟩

/-- `to_singular`: the naive suffix rule (`ies` → `y` when length > 3,
else drop a trailing `s` when length > 1).  `endswith`/slicing are spelt
out on the character list. -/
def to_singular (word : String) : String :=
  if ([ 'i', 'e', 's' ].isSuffixOf word.data) ∧ word.data.length > 3 then
    ⟨word.data.take (word.data.length - 3) ++ [ 'y' ]⟩
  else if ([ 's' ].isSuffixOf word.data) ∧ word.data.length > 1 then
    ⟨word.data.take (word.data.length - 1)⟩
  else
    word

/-- Python `str.split()` with no argument: split on whitespace runs into
raw words, discarding empty pieces (`acc` is the current word reversed). -/
def pyWordsAux : List Char → List Char → List String
  | [], acc => if acc = [] then [] else [⟨acc.reverse⟩]
  | c :: cs, acc =>
      if pySpace c then
        (if acc = [] then pyWordsAux cs [] else ⟨acc.reverse⟩ :: pyWordsAux cs [])
      else pyWordsAux cs (c :: acc)

/-- Python `str.split()` on a whole string. -/
def pySplit (s : String) : List String :=
  pyWordsAux s.data []

/-- The stopword-filtered surface words of `tokenize` (the loop's surviving
`token` values, before singular-emission). -/
def surfaceWords (content : String) : List String :=
  (pySplit (to_lower (remove_punctuation content))).filter (fun w => w ∉ stopWords)

/-- `tokenize`: for every surviving word emit the word, then its derived
singular when that differs. -/
def tokenize (content : String) : List String :=
  (surfaceWords content).flatMap
    (fun w => w :: (if to_singular w ≠ w then [to_singular w] else []))

/-! ## Trie (`TrieNode`, `Trie`) -/

mutual
/-- A trie node: ordered children map (insertion-ordered, as a CPython
dict) and the terminal marker `is_end_of_word`. -/
inductive TrieNode : Type where
  | mk (children : Children) (is_end_of_word : Bool) : TrieNode

/-- The insertion-ordered association list of children of a `TrieNode`. -/
inductive Children : Type where
  | nil : Children
  | cons (c : Char) (t : TrieNode) (rest : Children) : Children
end

namespace TrieNode

/-- A fresh `TrieNode()`. -/
def empty : TrieNode := .mk .nil false

/-- The children map of a node. -/
def children : TrieNode → Children
  | .mk ch _ => ch

/-- The terminal marker of a node. -/
def isEnd : TrieNode → Bool
  | .mk _ e => e

end TrieNode

namespace Children

/-- Dictionary lookup `node.children[c]` (`None` when absent). -/
def find : Children → Char → Option TrieNode
  | .nil, _ => none
  | .cons c t rest, d => if c = d then some t else find rest d

/-- Dictionary store `node.children[c] = t`: replace in place when the key
exists, else append (CPython dict insertion order). -/
def set : Children → Char → TrieNode → Children
  | .nil, d, n => .cons d n .nil
  | .cons c t rest, d, n => if c = d then .cons c n rest else .cons c t (set rest d n)

end Children

namespace TrieNode

/-- `Trie.insert`, walking a character list: create missing children, mark
the final node terminal. -/
def insertChars : TrieNode → List Char → TrieNode
  | .mk ch _, [] => .mk ch true
  | .mk ch e, c :: cs =>
      let child := (ch.find c).getD TrieNode.empty
      .mk (ch.set c (child.insertChars cs)) e

/-- `Trie.search`, walking a character list: follow children, fail on a
missing edge, and report the terminal marker at the end. -/
def searchChars : TrieNode → List Char → Bool
  | n, [] => n.isEnd
  | .mk ch _, c :: cs =>
      match ch.find c with
      | none => false
      | some child => child.searchChars cs

end TrieNode

mutual
/-- `Trie._find_suggestions`: the current prefix first when terminal, then
the children's suggestions in child (insertion) order. -/
def TrieNode.suggestions : TrieNode → String → List String
  | .mk ch e, pre => (if e then [pre] else []) ++ Children.suggestionsAll ch pre

/-- Suggestions collected over a children list, in order. -/
def Children.suggestionsAll : Children → String → List String
  | .nil, _ => []
  | .cons c t rest, pre =>
      TrieNode.suggestions t (pre.push c) ++ Children.suggestionsAll rest pre
end

/-- Walk a trie along a character list, `none` when an edge is missing. -/
def TrieNode.walk : TrieNode → List Char → Option TrieNode
  | n, [] => some n
  | .mk ch _, c :: cs =>
      match ch.find c with
      | none => none
      | some child => child.walk cs

/-- The `Trie` class: a wrapper around the root node. -/
structure Trie where
  root : TrieNode

namespace Trie

/-- `Trie()`. -/
def empty : Trie := ⟨TrieNode.empty⟩

/-- `Trie.insert(word)`. -/
def insert (t : Trie) (word : String) : Trie :=
  ⟨t.root.insertChars word.data⟩

/-- `Trie.search(word)` (exact membership). -/
def search (t : Trie) (word : String) : Bool :=
  t.root.searchChars word.data

/-- `Trie.autocomplete(prefix)`: empty when the prefix is not a path,
otherwise all terminal words below the prefix node. -/
def autocomplete (t : Trie) (pre : String) : List String :=
  match t.root.walk pre.data with
  | none => []
  | some n => n.suggestions pre

end Trie

/-! ## Association-list infrastructure for Python dicts / defaultdicts -/

/-- Lookup in an insertion-ordered association list (Python `k in d` /
`d[k]` after a presence check). -/
def lookupAssoc {α β : Type} [DecidableEq α] : List (α × β) → α → Option β
  | [], _ => none
  | (k, v) :: rest, x => if k = x then some v else lookupAssoc rest x

/-- `defaultdict(int)` update `d[k] += n`: add to the stored count, or
append the key with count `n` when absent (insert-on-read then store). -/
def bumpAdd {α : Type} [DecidableEq α] : List (α × Nat) → α → Nat → List (α × Nat)
  | [], x, n => [(x, n)]
  | (k, v) :: rest, x, n =>
      if k = x then (k, v + n) :: rest else (k, v) :: bumpAdd rest x n

/-- `defaultdict(int)` read `d[k]`: returns the stored count, and inserts
the key with count `0` when absent (the CPython side effect of reading a
missing key of a `defaultdict`). -/
def defaultRead {α : Type} [DecidableEq α] : List (α × Nat) → α → Nat × List (α × Nat)
  | [], x => (0, [(x, 0)])
  | (k, v) :: rest, x =>
      if k = x then (v, (k, v) :: rest)
      else
        let r := defaultRead rest x
        (r.1, (k, v) :: r.2)

/-! ## WebPage -/

/-- A `WebPage`: url, raw content, and the per-document token-frequency
table (a `defaultdict(int)` in insertion order). -/
structure WebPage where
  url : String
  content : String
  wordFrequency : List (String × Nat)
  deriving DecidableEq

/-- Builds the `wordFrequency` table of `WebPage.__init__`:
`for token in tokens: self.wordFrequency[token] += 1`. -/
def buildFreq (tokens : List String) : List (String × Nat) :=
  tokens.foldl (fun m tok => bumpAdd m tok 1) []

/-- `WebPage.__init__(url, content, trie)`: computes the frequency table
and inserts every emitted token into the shared trie, returning the page
together with the updated trie. -/
def WebPage.make (url content : String) (trie : Trie) : WebPage × Trie :=
  let tokens := tokenize content
  (⟨url, content, buildFreq tokens⟩, tokens.foldl (fun t tok => t.insert tok) trie)

/-! ## InvertedIndex -/

/-- Python set `s.add(x)`: no-op when present, else append (membership is
what matters; insertion order is kept as the list order). -/
def addToSet (s : List Nat) (x : Nat) : List Nat :=
  if x ∈ s then s else s ++ [x]

/-- The `InvertedIndex`: `defaultdict(set)` from token to posting set,
as an insertion-ordered association list. -/
structure InvertedIndex where
  index : List (String × List Nat)
  deriving DecidableEq

namespace InvertedIndex

/-- `InvertedIndex()`. -/
def empty : InvertedIndex := ⟨[]⟩

/-- `self.index[token].add(pageId)` on the `defaultdict(set)`: bump the
existing posting set, or append the token with a fresh singleton set. -/
def addPosting : List (String × List Nat) → String → Nat → List (String × List Nat)
  | [], tok, pid => [(tok, [pid])]
  | (k, s) :: rest, tok, pid =>
      if k = tok then (k, addToSet s pid) :: rest
      else (k, s) :: addPosting rest tok pid

/-- `InvertedIndex.add_page(pageId, tokens)`. -/
def add_page (idx : InvertedIndex) (pageId : Nat) (tokens : List String) : InvertedIndex :=
  ⟨tokens.foldl (fun m tok => addPosting m tok pageId) idx.index⟩

/-- The posting set stored for a token (empty when the token is absent;
pure, no `defaultdict` insertion since the code guards with `in`). -/
def postings (idx : InvertedIndex) (tok : String) : List Nat :=
  (lookupAssoc idx.index tok).getD []

/-- `InvertedIndex.search(token)`: lowercase, derive the singular, union
the posting sets of the two forms (empty when neither is indexed).  The
union keeps first-lookup order; the theorems rely only on membership. -/
def search (idx : InvertedIndex) (token : String) : List Nat :=
  let tokenL := to_lower token
  let singular := to_singular tokenL
  let a := idx.postings tokenL
  let b := idx.postings singular
  a ++ b.filter (fun pid => pid ∉ a)

end InvertedIndex

/-! ## SearchEngine -/

/-- The `SearchEngine`: ordered page list (index = page id) and the owned
inverted index. -/
structure SearchEngine where
  pages : List WebPage
  index : InvertedIndex
  deriving DecidableEq

namespace SearchEngine

/-- `SearchEngine()`. -/
def emptyEngine : SearchEngine := ⟨[], .empty⟩

/-- `SearchEngine.add_page(page)`: append the page, assign the next
sequential id, and index the tokenization of its content. -/
def add_page (e : SearchEngine) (page : WebPage) : SearchEngine :=
  let pages := e.pages ++ [page]
  let pageId := pages.length - 1
  ⟨pages, e.index.add_page pageId (tokenize page.content)⟩

/-- `SearchEngine.has_exact_match(content, query)`: substring containment
of the normalized query in the normalized content (Python `in`). -/
def has_exact_match (content query : String) : Bool :=
  (to_lower (remove_punctuation content)).data.tails.any
    (fun suf => (to_lower (remove_punctuation query)).data.isPrefixOf suf)

/-- One iteration of the inner posting loop of `SearchEngine.search`:
`pageMatchCount[pageId] += 1` and
`pageFrequencySum[pageId] += self.pages[pageId].wordFrequency[token]`.
The frequency read is a `defaultdict` read and mutates the page's stored
table when the token is absent, so the page list is threaded through.
(An out-of-range `pageId` would raise `IndexError` in Python; it cannot
arise from states built by ingestion, and is modelled as a no-op read.) -/
def tokenStep (tok : String)
    (st : List (Nat × Nat) × List (Nat × Nat) × List WebPage) (pid : Nat) :
    List (Nat × Nat) × List (Nat × Nat) × List WebPage :=
  match st.2.2.get? pid with
  | none => (bumpAdd st.1 pid 1, bumpAdd st.2.1 pid 0, st.2.2)
  | some page =>
      let r := defaultRead page.wordFrequency tok
      (bumpAdd st.1 pid 1, bumpAdd st.2.1 pid r.1,
        st.2.2.set pid { page with wordFrequency := r.2 })

/-- The token loop of `SearchEngine.search`: for each query token, iterate
over the posting set returned by the inverted index. -/
def searchLoop (idx : InvertedIndex) (queryTokens : List String)
    (pages : List WebPage) :
    List (Nat × Nat) × List (Nat × Nat) × List WebPage :=
  queryTokens.foldl
    (fun st tok => (idx.search tok).foldl (tokenStep tok) st)
    ([], [], pages)

/-- The Python sort key of a candidate `(pageId, matchCount)` pair:
`(-(pageId in exactMatches), -matchCount, -pageFrequencySum[pageId])`. -/
def sortKey (exactMatches : List Nat) (freqSums : List (Nat × Nat))
    (x : Nat × Nat) : Int × Int × Int :=
  ((if x.1 ∈ exactMatches then -1 else 0), -(x.2 : Int),
    -((lookupAssoc freqSums x.1).getD 0 : Int))

/-- Lexicographic `≤` on the `Int` sort-key triples (the order `sorted`
uses on tuples). -/
def keyLe (a b : Int × Int × Int) : Prop :=
  a.1 < b.1 ∨ (a.1 = b.1 ∧ (a.2.1 < b.2.1 ∨ (a.2.1 = b.2.1 ∧ a.2.2 ≤ b.2.2)))

instance : DecidableRel keyLe := fun a b => by
  unfold keyLe; exact inferInstance

/-- The comparison `sorted` performs between two candidate
`(pageId, matchCount)` pairs: non-strict lexicographic order of their
sort keys (Python's stable sort with this key function). -/
def rankRel (exactMatches : List Nat) (freqSums : List (Nat × Nat))
    (x y : Nat × Nat) : Prop :=
  keyLe (sortKey exactMatches freqSums x) (sortKey exactMatches freqSums y)

instance (exactMatches : List Nat) (freqSums : List (Nat × Nat)) :
    DecidableRel (rankRel exactMatches freqSums) := fun a b => by
  unfold rankRel; exact inferInstance

/-- Everything `SearchEngine.search` computes: the two per-page
accumulators in insertion order, the page list after the frequency reads
(possibly mutated), the exact-match ids, and the ranked result.  Python's
`sorted` is stable; it is modelled by Mathlib's stable `insertionSort`
under the non-strict lexicographic key order. -/
structure SearchOutcome where
  matchCounts : List (Nat × Nat)
  freqSums : List (Nat × Nat)
  pagesAfter : List WebPage
  exactMatches : List Nat
  sortedResults : List (Nat × Nat)
  deriving DecidableEq

/-- `SearchEngine.search(query)`. -/
def search (e : SearchEngine) (query : String) : SearchOutcome :=
  let queryTokens := tokenize query
  let st := searchLoop e.index queryTokens e.pages
  let exacts := ((st.2.2.enum).filter
    (fun p => has_exact_match p.2.content query)).map (fun p => p.1)
  { matchCounts := st.1
    freqSums := st.2.1
    pagesAfter := st.2.2
    exactMatches := exacts
    sortedResults := st.1.insertionSort (rankRel exacts st.2.1) }

end SearchEngine

/-- One step of the `Main`-section ingestion pattern:
`engine.add_page(WebPage(url, content, trie))` with the shared trie. -/
def ingest (st : Trie × SearchEngine) (doc : String × String) : Trie × SearchEngine :=
  let r := WebPage.make doc.1 doc.2 st.1
  (r.2, st.2.add_page r.1)

/-- Ingest a whole corpus, in order, starting from the empty trie and the
empty engine. -/
def ingestAll (docs : List (String × String)) : Trie × SearchEngine :=
  docs.foldl ingest (.empty, .emptyEngine)

/-! ## Word Break -/

/-- All splits of a list into a non-empty prefix and the remaining suffix,
in increasing prefix length (the `for end in range(1, len(s)+1)` loop). -/
def splits {α : Type} : List α → List (List α × List α)
  | [] => []
  | c :: cs => ([c], cs) :: (splits cs).map (fun p => (c :: p.1, p.2))

/-- `word_break_helper`, structurally recursive on a fuel bound (the fuel
never runs out when it exceeds the suffix length, see
`wordBreakFuel_congr`): on the empty suffix one empty segmentation; else
for each trie-known non-empty prefix, prepend it to each segmentation of
the remainder, joined with a space when the remainder's rendering is
non-empty.  The Python memo is a per-call cache and does not change the
returned value. -/
def wordBreakFuel (t : Trie) : Nat → List Char → List (List Char)
  | 0, _ => []
  | _ + 1, [] => [[]]
  | fuel + 1, c :: cs =>
      (splits (c :: cs)).flatMap
        (fun p =>
          if t.root.searchChars p.1 then
            (wordBreakFuel t fuel p.2).map
              (fun sub => p.1 ++ (if sub = [] then [] else ' ' :: sub))
          else [])

/-- `word_break(s, trie)`. -/
def word_break (s : String) (t : Trie) : List String :=
  (wordBreakFuel t (s.data.length + 1) s.data).map (fun cs => ⟨cs⟩)

/-! ## Specification-side definitions -/

/-- Specification of a segmentation (§4.5): a partition of `s` into
non-empty trie-known words whose concatenation reproduces `s`. -/
def SegOf (t : Trie) (s : List Char) (parts : List (List Char)) : Prop :=
  (∀ w ∈ parts, t.root.searchChars w = true ∧ w ≠ []) ∧ parts.flatten = s

/-- The space-joined rendering of a segmentation, exactly as the code
builds it: `word + ("" if not sub else " " + sub)`. -/
def joinSp : List (List Char) → List Char
  | [] => []
  | w :: ws =>
      let sub := joinSp ws
      w ++ (if sub = [] then [] else ' ' :: sub)

/-- The count stored in a frequency table for a key (`0` when absent, the
value a `defaultdict(int)` read reports). -/
def freqCount (m : List (String × Nat)) (k : String) : Nat :=
  (lookupAssoc m k).getD 0

/-- The four documents of the `Main` section, in ingestion order. -/
def mainDocs : List (String × String) :=
  [("https://example.com", "This is an example page with a search engine."),
   ("https://example2.com", "Another example page with algorithms and data."),
   ("https://example3.com", "The news are spreading quickly. Search engines use algorithms."),
   ("https://example4.com", "Exact match test: example search")]

/-- The shared trie and engine after the `Main`-section ingestion. -/
def mainState : Trie × SearchEngine := ingestAll mainDocs

/-- The trie with vocabulary from the §8 segmentation example. -/
def segTrie : Trie :=
  ((Trie.empty.insert "search").insert "engine").insert "searches"

/-- The round-trip invariant of §8: every key of every ingested document's
stored frequency table is in the shared trie, and the document's id is in
that token's posting set. -/
def EngineInv (st : Trie × SearchEngine) : Prop :=
  ∀ (i : Nat) (page : WebPage) (k : String) (v : Nat),
    st.2.pages[i]? = some page → (k, v) ∈ page.wordFrequency →
    st.1.search k = true ∧ i ∈ st.2.index.postings k

/-! # Theorems -/

/-! ## Trie lemmas -/

theorem children_find_set_self : ∀ (ch : Children) (c : Char) (n : TrieNode),
    (ch.set c n).find c = some n
  | .nil, c, n => by simp [Children.set, Children.find]
  | .cons d t rest, c, n => by
      by_cases h : d = c
      · subst h; simp [Children.set, Children.find]
      · simp [Children.set, Children.find, h, children_find_set_self rest c n]

theorem children_find_set_ne : ∀ (ch : Children) (c d : Char) (n : TrieNode),
    c ≠ d → (ch.set c n).find d = ch.find d
  | .nil, c, d, n, h => by simp [Children.set, Children.find, h]
  | .cons e t rest, c, d, n, h => by
      by_cases he : e = c
      · subst he
        simp [Children.set, Children.find, h]
      · simp [Children.set, Children.find, he, children_find_set_ne rest c d n h]

theorem children_set_set : ∀ (ch : Children) (c : Char) (a b : TrieNode),
    (ch.set c a).set c b = ch.set c b
  | .nil, c, a, b => by simp [Children.set]
  | .cons d t rest, c, a, b => by
      by_cases h : d = c
      · subst h; simp [Children.set]
      · simp [Children.set, h, children_set_set rest c a b]

theorem searchChars_insertChars_self (w : List Char) :
    ∀ t : TrieNode, (t.insertChars w).searchChars w = true := by
  induction w with
  | nil =>
      intro t; cases t with
      | mk ch e => simp [TrieNode.insertChars, TrieNode.searchChars, TrieNode.isEnd]
  | cons c cs ih =>
      intro t; cases t with
      | mk ch e =>
          simp only [TrieNode.insertChars, TrieNode.searchChars]
          rw [children_find_set_self]
          exact ih _

theorem searchChars_insertChars_of (v : List Char) :
    ∀ (w : List Char) (t : TrieNode), t.searchChars v = true →
      (t.insertChars w).searchChars v = true := by
  induction v with
  | nil =>
      intro w t h
      cases t with
      | mk ch e =>
          cases w with
          | nil => simp [TrieNode.searchChars, TrieNode.insertChars, TrieNode.isEnd]
          | cons c cs =>
              simpa [TrieNode.searchChars, TrieNode.insertChars, TrieNode.isEnd] using h
  | cons a as ih =>
      intro w t h
      cases t with
      | mk ch e =>
          cases w with
          | nil => simpa [TrieNode.insertChars] using h
          | cons c cs =>
              simp only [TrieNode.searchChars] at h
              cases hf : ch.find a with
              | none => rw [hf] at h; exact absurd h (by simp)
              | some child =>
                  rw [hf] at h
                  simp only [TrieNode.insertChars, TrieNode.searchChars]
                  by_cases hc : c = a
                  · subst hc
                    rw [children_find_set_self]
                    have : (ch.find c).getD TrieNode.empty = child := by rw [hf]; rfl
                    rw [this]
                    exact ih cs child h
                  · rw [children_find_set_ne ch c a _ hc, hf]
                    exact h

theorem insertChars_idem (w : List Char) :
    ∀ t : TrieNode, (t.insertChars w).insertChars w = t.insertChars w := by
  induction w with
  | nil =>
      intro t; cases t with
      | mk ch e => simp [TrieNode.insertChars]
  | cons c cs ih =>
      intro t; cases t with
      | mk ch e =>
          simp only [TrieNode.insertChars]
          rw [children_find_set_self]
          show TrieNode.mk
              ((ch.set c _).set c ((((ch.find c).getD TrieNode.empty).insertChars cs).insertChars cs)) e = _
          rw [ih, children_set_set]

theorem trie_search_foldl_insert_of (l : List String) :
    ∀ (t : Trie) (w : String), t.search w = true →
      (l.foldl (fun t tok => t.insert tok) t).search w = true := by
  induction l with
  | nil => intro t w h; exact h
  | cons a l ih =>
      intro t w h
      exact ih (t.insert a) w (searchChars_insertChars_of w.data a.data t.root h)

theorem trie_search_foldl_insert_mem (l : List String) :
    ∀ (t : Trie) (w : String), w ∈ l →
      (l.foldl (fun t tok => t.insert tok) t).search w = true := by
  induction l with
  | nil => intro t w h; cases h
  | cons a l ih =>
      intro t w h
      rcases List.mem_cons.mp h with h | h
      · subst h
        exact trie_search_foldl_insert_of l (t.insert w) w
          (searchChars_insertChars_self w.data t.root)
      · exact ih (t.insert a) w h

/-- **C8.** Trie insertion is idempotent: inserting a token twice yields a
trie whose membership test (`search`) and `autocomplete` agree with the
trie after a single insertion, for every query word and every prefix. -/
theorem c8_trie_insert_idempotent (t : Trie) (w v pre : String) :
    ((t.insert w).insert w).search v = (t.insert w).search v ∧
    ((t.insert w).insert w).autocomplete pre = (t.insert w).autocomplete pre := by
  have h : (t.insert w).insert w = t.insert w := by
    show (⟨(t.root.insertChars w.data).insertChars w.data⟩ : Trie) = ⟨t.root.insertChars w.data⟩
    rw [insertChars_idem]
  rw [h]
  exact ⟨rfl, rfl⟩

/-! ## Word-break lemmas -/

theorem mem_splits {α : Type} : ∀ (s w r : List α),
    (w, r) ∈ splits s ↔ w ≠ [] ∧ w ++ r = s := by
  intro s
  induction s with
  | nil =>
      intro w r
      simp only [splits, List.not_mem_nil, false_iff, not_and]
      intro h1 h2
      exact absurd (List.append_eq_nil.mp h2).1 h1
  | cons c cs ih =>
      intro w r
      simp only [splits, List.mem_cons, List.mem_map]
      constructor
      · rintro (h | ⟨⟨q1, q2⟩, hq, h⟩)
        · obtain ⟨h1, h2⟩ := Prod.mk.injEq _ _ _ _ ▸ h
          subst h1; subst h2
          exact ⟨by simp, rfl⟩
        · obtain ⟨h1, h2⟩ := Prod.mk.injEq _ _ _ _ ▸ h.symm
          obtain ⟨hne, heq⟩ := (ih q1 q2).mp hq
          subst h1; subst h2
          exact ⟨by simp, by rw [List.cons_append, heq]⟩
      · rintro ⟨hne, heq⟩
        cases w with
        | nil => exact absurd rfl hne
        | cons a ws =>
            rw [List.cons_append] at heq
            injection heq with h1 h2
            subst h1
            cases ws with
            | nil =>
                left
                simp only [List.nil_append] at h2
                rw [h2]
            | cons b bs =>
                right
                exact ⟨(b :: bs, r), (ih (b :: bs) r).mpr ⟨by simp, h2⟩, rfl⟩

theorem flatMap_congr_mem {α β : Type} : ∀ (l : List α) (f g : α → List β),
    (∀ x ∈ l, f x = g x) → l.flatMap f = l.flatMap g := by
  intro l f g h
  induction l with
  | nil => rfl
  | cons a l ih =>
      rw [List.flatMap_cons, List.flatMap_cons, h a (List.mem_cons_self a l),
        ih (fun x hx => h x (List.mem_cons_of_mem a hx))]

theorem wordBreakFuel_congr (t : Trie) : ∀ (n : Nat) (s : List Char) (m : Nat),
    s.length < n → s.length < m → wordBreakFuel t n s = wordBreakFuel t m s := by
  intro n
  induction n with
  | zero => intro s m h1 _; exact absurd h1 (by omega)
  | succ k ih =>
      intro s m h1 h2
      cases m with
      | zero => exact absurd h2 (by omega)
      | succ j =>
          cases s with
          | nil => rfl
          | cons c cs =>
              simp only [wordBreakFuel]
              apply flatMap_congr_mem
              rintro ⟨w, r⟩ hp
              obtain ⟨hne, heq⟩ := (mem_splits (c :: cs) w r).mp hp
              have hlen : w.length + r.length = cs.length + 1 := by
                have := congrArg List.length heq
                simpa [List.length_append] using this
              have hw : 0 < w.length := List.length_pos.mpr hne
              by_cases hs : t.root.searchChars w = true
              · simp only [hs, if_true]
                rw [ih r j (by simp at h1; omega) (by simp at h2; omega)]
              · simp only [Bool.not_eq_true] at hs
                simp [hs]

theorem wordBreak_complete (t : Trie) : ∀ (parts : List (List Char)),
    (∀ w ∈ parts, t.root.searchChars w = true ∧ w ≠ []) →
    joinSp parts ∈ wordBreakFuel t (parts.flatten.length + 1) parts.flatten := by
  intro parts
  induction parts with
  | nil => intro _; simp [joinSp, wordBreakFuel]
  | cons w ws ih =>
      intro h
      obtain ⟨hsw, hwne⟩ := h w (List.mem_cons_self w ws)
      have hws : ∀ v ∈ ws, t.root.searchChars v = true ∧ v ≠ [] :=
        fun v hv => h v (List.mem_cons_of_mem w hv)
      obtain ⟨a, w', rfl⟩ : ∃ a w', w = a :: w' := by
        cases w with
        | nil => exact absurd rfl hwne
        | cons a w' => exact ⟨a, w', rfl⟩
      have hflat : ((a :: w') :: ws).flatten = a :: (w' ++ ws.flatten) := by
        simp [List.flatten]
      rw [hflat]
      simp only [wordBreakFuel, List.mem_flatMap]
      refine ⟨(a :: w', ws.flatten), ?_, ?_⟩
      · exact (mem_splits _ _ _).mpr ⟨by simp, by simp⟩
      · simp only [hsw, if_true, List.mem_map]
        refine ⟨joinSp ws, ?_, by simp [joinSp]⟩
        have hlt : ws.flatten.length < (a :: (w' ++ ws.flatten)).length := by
          simp [List.length_append]; omega
        rw [List.length_cons] at hlt ⊢
        rw [wordBreakFuel_congr t (w' ++ ws.flatten).length.succ ws.flatten
          (ws.flatten.length + 1) (by simpa using hlt) (by omega)]
        exact ih hws

theorem wordBreak_sound (t : Trie) : ∀ (n : Nat) (s : List Char), s.length < n →
    ∀ seg ∈ wordBreakFuel t n s, ∃ parts, SegOf t s parts ∧ seg = joinSp parts := by
  intro n
  induction n with
  | zero => intro s h; exact absurd h (by omega)
  | succ k ih =>
      intro s hlen seg hseg
      cases s with
      | nil =>
          simp only [wordBreakFuel, List.mem_singleton] at hseg
          exact ⟨[], ⟨by simp, rfl⟩, by rw [hseg]; rfl⟩
      | cons c cs =>
          simp only [wordBreakFuel, List.mem_flatMap] at hseg
          obtain ⟨⟨w, r⟩, hp, hseg⟩ := hseg
          obtain ⟨hne, heq⟩ := (mem_splits (c :: cs) w r).mp hp
          by_cases hs : t.root.searchChars w = true
          · simp only [hs, if_true, List.mem_map] at hseg
            obtain ⟨sub, hsub, rfl⟩ := hseg
            have hwlen : 0 < w.length := List.length_pos.mpr hne
            have hrk : r.length < k := by
              have := congrArg List.length heq
              simp only [List.length_append, List.length_cons] at this
              simp only [List.length_cons] at hlen
              omega
            obtain ⟨parts', hsp, rfl⟩ := ih r hrk sub hsub
            refine ⟨w :: parts', ⟨?_, ?_⟩, ?_⟩
            · intro v hv
              rcases List.mem_cons.mp hv with hv | hv
              · exact hv ▸ ⟨hs, hne⟩
              · exact hsp.1 v hv
            · simp only [List.flatten]
              rw [hsp.2, heq]
            · simp [joinSp]
          · simp only [Bool.not_eq_true] at hs
            simp [hs] at hseg

/-- **C7.** `word_break(s, trie)` returns exactly the renderings of all
partitions of `s` into non-empty trie-known words (space-joined,
concatenating back to `s`); the empty string yields exactly the single
empty segmentation, an unsegmentable string yields the empty list, and on
the vocabulary search/engine/searches the input "searchengine"
yields exactly ["search engine"]. -/
theorem c7_word_break_spec :
    (∀ (t : Trie) (s seg : String),
        seg ∈ word_break s t ↔ ∃ parts, SegOf t s.data parts ∧ seg = ⟨joinSp parts⟩)
    ∧ (∀ t : Trie, word_break "" t = [""])
    ∧ word_break "searchengine" segTrie = ["search engine"]
    ∧ word_break "xyz" segTrie = [] := by
  refine ⟨?_, fun t => rfl, by decide, by decide⟩
  intro t s seg
  unfold word_break
  rw [List.mem_map]
  constructor
  · rintro ⟨cs, hcs, rfl⟩
    obtain ⟨parts, hsp, rfl⟩ :=
      wordBreak_sound t (s.data.length + 1) s.data (Nat.lt_succ_self _) cs hcs
    exact ⟨parts, hsp, rfl⟩
  · rintro ⟨parts, hsp, rfl⟩
    refine ⟨joinSp parts, ?_, rfl⟩
    have h := wordBreak_complete t parts hsp.1
    rw [hsp.2] at h
    exact h

/-- **C10.** The word-break recursion terminates on every input: the
helper only recurses on strict suffixes, so its fuel-indexed unfolding is
independent of the fuel bound once the bound exceeds the suffix length
(in particular the `length + 1` bound used by `word_break` is enough),
and the result is a finite list. -/
theorem c10_word_break_terminates (t : Trie) (s : List Char) (n m : Nat)
    (h1 : s.length < n) (h2 : s.length < m) :
    wordBreakFuel t n s = wordBreakFuel t m s :=
  wordBreakFuel_congr t n s m h1 h2

/-- Witness for C10 at a concrete input: any two sufficient fuel bounds
agree on "searchengine". -/
theorem c10_word_break_terminates_witness :
    wordBreakFuel segTrie 13 "searchengine".data =
      wordBreakFuel segTrie 50 "searchengine".data :=
  c10_word_break_terminates segTrie "searchengine".data 13 50 (by decide) (by decide)

/-! ## Frequency-table lemmas -/

theorem lookupAssoc_bumpAdd_self {α : Type} [DecidableEq α] :
    ∀ (m : List (α × Nat)) (k : α) (n : Nat),
    lookupAssoc (bumpAdd m k n) k = some ((lookupAssoc m k).getD 0 + n) := by
  intro m k n
  induction m with
  | nil => simp [bumpAdd, lookupAssoc]
  | cons p rest ih =>
      obtain ⟨a, b⟩ := p
      by_cases h : a = k
      · subst h; simp [bumpAdd, lookupAssoc]
      · simp [bumpAdd, lookupAssoc, h, ih]

theorem lookupAssoc_bumpAdd_ne {α : Type} [DecidableEq α] :
    ∀ (m : List (α × Nat)) (k x : α) (n : Nat), k ≠ x →
    lookupAssoc (bumpAdd m k n) x = lookupAssoc m x := by
  intro m k x n hkx
  induction m with
  | nil => simp [bumpAdd, lookupAssoc, hkx]
  | cons p rest ih =>
      obtain ⟨a, b⟩ := p
      by_cases h : a = k
      · subst h; simp [bumpAdd, lookupAssoc, hkx]
      · simp [bumpAdd, lookupAssoc, h, ih]

theorem freqCount_bumpAdd (m : List (String × Nat)) (k x : String) (n : Nat) :
    freqCount (bumpAdd m k n) x = freqCount m x + (if k = x then n else 0) := by
  unfold freqCount
  by_cases h : k = x
  · subst h; rw [lookupAssoc_bumpAdd_self]; simp
  · rw [lookupAssoc_bumpAdd_ne m k x n h]; simp [h]

theorem freqCount_foldl_bump : ∀ (l : List String) (m : List (String × Nat)) (x : String),
    freqCount (l.foldl (fun m tok => bumpAdd m tok 1) m) x = freqCount m x + l.count x := by
  intro l
  induction l with
  | nil => intro m x; simp
  | cons a l ih =>
      intro m x
      rw [List.foldl_cons, ih, freqCount_bumpAdd, List.count_cons]
      by_cases h : a = x
      · simp only [h, if_pos rfl, beq_self_eq_true, if_true]
        omega
      · simp [h, Ne.symm h]

theorem freqCount_buildFreq (l : List String) (x : String) :
    freqCount (buildFreq l) x = l.count x := by
  have h := freqCount_foldl_bump l [] x
  simpa [buildFreq, freqCount, lookupAssoc] using h

theorem lookup_buildFreq_of_pos (l : List String) (x : String) (h : 0 < l.count x) :
    lookupAssoc (buildFreq l) x = some (l.count x) := by
  have hc := freqCount_buildFreq l x
  unfold freqCount at hc
  cases hl : lookupAssoc (buildFreq l) x with
  | none => rw [hl] at hc; simp at hc; omega
  | some v => rw [hl] at hc; simp at hc; rw [hc]

theorem mem_bumpAdd_key {α : Type} [DecidableEq α] :
    ∀ (m : List (α × Nat)) (k x : α) (v n : Nat),
    (x, v) ∈ bumpAdd m k n → (∃ v2, (x, v2) ∈ m) ∨ x = k := by
  intro m k x v n
  induction m with
  | nil =>
      intro h
      simp only [bumpAdd, List.mem_singleton, Prod.mk.injEq] at h
      exact Or.inr h.1
  | cons p rest ih =>
      obtain ⟨a, b⟩ := p
      intro h
      by_cases hak : a = k
      · subst hak
        simp only [bumpAdd, if_pos rfl] at h
        rcases List.mem_cons.mp h with h | h
        · exact Or.inr (congrArg Prod.fst h)
        · exact Or.inl ⟨v, List.mem_cons_of_mem _ h⟩
      · simp only [bumpAdd, if_neg hak] at h
        rcases List.mem_cons.mp h with h | h
        · have hx : x = a := congrArg Prod.fst h
          exact Or.inl ⟨b, by rw [hx]; exact List.mem_cons_self _ _⟩
        · rcases ih h with ⟨v2, hv2⟩ | h2
          · exact Or.inl ⟨v2, List.mem_cons_of_mem _ hv2⟩
          · exact Or.inr h2

theorem mem_buildFreq_key : ∀ (l : List String) (x : String) (v : Nat),
    (x, v) ∈ buildFreq l → x ∈ l := by
  have haux : ∀ (l : List String) (m : List (String × Nat)) (x : String) (v : Nat),
      (x, v) ∈ l.foldl (fun m tok => bumpAdd m tok 1) m →
      (∃ v2, (x, v2) ∈ m) ∨ x ∈ l := by
    intro l
    induction l with
    | nil => intro m x v h; exact Or.inl ⟨v, h⟩
    | cons a l ih =>
        intro m x v h
        rw [List.foldl_cons] at h
        rcases ih (bumpAdd m a 1) x v h with ⟨v2, hv2⟩ | h2
        · rcases mem_bumpAdd_key m a x v2 1 hv2 with h3 | h3
          · exact Or.inl h3
          · exact Or.inr (by rw [h3]; exact List.mem_cons_self a l)
        · exact Or.inr (List.mem_cons_of_mem a h2)
  intro l x v h
  rcases haux l [] x v h with ⟨v2, hv2⟩ | h2
  · cases hv2
  · exact h2

/-! ## Inverted-index lemmas -/

theorem mem_addToSet (s : List Nat) (x y : Nat) :
    x ∈ addToSet s y ↔ x ∈ s ∨ x = y := by
  unfold addToSet
  by_cases h : y ∈ s
  · simp only [if_pos h]
    constructor
    · exact Or.inl
    · rintro (hx | rfl)
      · exact hx
      · exact h
  · simp [if_neg h]

theorem lookupAssoc_addPosting_self :
    ∀ (m : List (String × List Nat)) (tok : String) (pid : Nat),
    lookupAssoc (InvertedIndex.addPosting m tok pid) tok =
      some (addToSet ((lookupAssoc m tok).getD []) pid) := by
  intro m tok pid
  induction m with
  | nil => simp [InvertedIndex.addPosting, lookupAssoc, addToSet]
  | cons p rest ih =>
      obtain ⟨a, b⟩ := p
      by_cases h : a = tok
      · subst h; simp [InvertedIndex.addPosting, lookupAssoc]
      · simp [InvertedIndex.addPosting, lookupAssoc, h, ih]

theorem lookupAssoc_addPosting_ne :
    ∀ (m : List (String × List Nat)) (tok x : String) (pid : Nat), tok ≠ x →
    lookupAssoc (InvertedIndex.addPosting m tok pid) x = lookupAssoc m x := by
  intro m tok x pid htx
  induction m with
  | nil => simp [InvertedIndex.addPosting, lookupAssoc, htx]
  | cons p rest ih =>
      obtain ⟨a, b⟩ := p
      by_cases h : a = tok
      · subst h; simp [InvertedIndex.addPosting, lookupAssoc, htx]
      · simp [InvertedIndex.addPosting, lookupAssoc, h, ih]

theorem mem_postings_add_page_of_mem :
    ∀ (tokens : List String) (idx : InvertedIndex) (pid : Nat) (tok : String) (x : Nat),
    x ∈ idx.postings tok → x ∈ (idx.add_page pid tokens).postings tok := by
  have haux : ∀ (tokens : List String) (m : List (String × List Nat)) (pid : Nat)
      (tok : String) (x : Nat),
      x ∈ (lookupAssoc m tok).getD [] →
      x ∈ (lookupAssoc (tokens.foldl (fun m t => InvertedIndex.addPosting m t pid) m) tok).getD [] := by
    intro tokens
    induction tokens with
    | nil => intro m pid tok x h; exact h
    | cons a ts ih =>
        intro m pid tok x h
        rw [List.foldl_cons]
        apply ih
        by_cases hat : a = tok
        · subst hat
          rw [lookupAssoc_addPosting_self]
          simp only [Option.getD_some]
          exact (mem_addToSet _ x pid).mpr (Or.inl h)
        · rw [lookupAssoc_addPosting_ne m a tok pid hat]
          exact h
  intro tokens idx pid tok x h
  exact haux tokens idx.index pid tok x h

theorem mem_postings_add_page_self :
    ∀ (tokens : List String) (idx : InvertedIndex) (pid : Nat) (tok : String),
    tok ∈ tokens → pid ∈ (idx.add_page pid tokens).postings tok := by
  have haux : ∀ (tokens : List String) (m : List (String × List Nat)) (pid : Nat)
      (tok : String), tok ∈ tokens →
      pid ∈ (lookupAssoc (tokens.foldl (fun m t => InvertedIndex.addPosting m t pid) m) tok).getD [] := by
    intro tokens
    induction tokens with
    | nil => intro m pid tok h; cases h
    | cons a ts ih =>
        intro m pid tok h
        rw [List.foldl_cons]
        rcases List.mem_cons.mp h with rfl | h
        · by_cases hts : tok ∈ ts
          · exact ih _ pid tok hts
          · have : pid ∈ (lookupAssoc (InvertedIndex.addPosting m tok pid) tok).getD [] := by
              rw [lookupAssoc_addPosting_self]
              simp only [Option.getD_some]
              exact (mem_addToSet _ pid pid).mpr (Or.inr rfl)
            have hpres := mem_postings_add_page_of_mem ts ⟨InvertedIndex.addPosting m tok pid⟩ pid tok pid
            exact hpres this
        · exact ih _ pid tok h
  intro tokens idx pid tok h
  exact haux tokens idx.index pid tok h

/-- **C5 (amended).** `InvertedIndex.search` returns exactly the union of
the posting set for the lowercased token and the posting set for its
derived singular form, and is empty iff neither form is indexed.  The
concrete singular/plural round trip holds for drop-`s` plurals
(engines/engine); the spec's cookies/cookie example is refuted separately
because the derived singular of "cookies" is "cooky". -/
theorem c5_index_lookup_union :
    (∀ (idx : InvertedIndex) (t : String) (pid : Nat),
        pid ∈ idx.search t ↔
          pid ∈ idx.postings (to_lower t) ∨ pid ∈ idx.postings (to_singular (to_lower t)))
    ∧ (∀ (idx : InvertedIndex) (t : String),
        idx.search t = [] ↔
          idx.postings (to_lower t) = [] ∧ idx.postings (to_singular (to_lower t)) = [])
    ∧ 0 ∈ (InvertedIndex.empty.add_page 0 (tokenize "engines")).search "engine"
    ∧ 0 ∈ (InvertedIndex.empty.add_page 0 (tokenize "engine")).search "engines" := by
  have hmem : ∀ (idx : InvertedIndex) (t : String) (pid : Nat),
      pid ∈ idx.search t ↔
        pid ∈ idx.postings (to_lower t) ∨ pid ∈ idx.postings (to_singular (to_lower t)) := by
    intro idx t pid
    unfold InvertedIndex.search
    simp only [List.mem_append, List.mem_filter, decide_eq_true_eq]
    constructor
    · rintro (h | ⟨h, _⟩)
      · exact Or.inl h
      · exact Or.inr h
    · rintro (h | h)
      · exact Or.inl h
      · by_cases ha : pid ∈ idx.postings (to_lower t)
        · exact Or.inl ha
        · exact Or.inr ⟨h, ha⟩
  refine ⟨hmem, ?_, by decide, by decide⟩
  intro idx t
  rw [List.eq_nil_iff_forall_not_mem, List.eq_nil_iff_forall_not_mem,
    List.eq_nil_iff_forall_not_mem]
  constructor
  · intro h
    constructor
    · intro x hx; exact h x ((hmem idx t x).mpr (Or.inl hx))
    · intro x hx; exact h x ((hmem idx t x).mpr (Or.inr hx))
  · rintro ⟨h1, h2⟩ x hx
    rcases (hmem idx t x).mp hx with h | h
    · exact h1 x h
    · exact h2 x h

/-- **C5 counterexample.** The claimed cookies/cookie consequence fails on
the code: a document ingested containing "cookies" is indexed under
"cookies" and "cooky" (the ies-to-y singular), so the query token
"cookie" finds nothing, and conversely a document containing "cookie"
is not found by the query token "cookies". -/
theorem c5_counterexample :
    (InvertedIndex.empty.add_page 0 (tokenize "cookies")).search "cookie" = []
    ∧ (InvertedIndex.empty.add_page 0 (tokenize "cookie")).search "cookies" = []
    ∧ 0 ∈ (InvertedIndex.empty.add_page 0 (tokenize "cookies")).postings "cookies"
    ∧ 0 ∈ (InvertedIndex.empty.add_page 0 (tokenize "cookie")).postings "cookie"
    ∧ to_singular "cookies" = "cooky" := by decide

/-! ## Tokenizer counting lemmas -/

theorem count_flatMap_singular : ∀ (l : List String) (x : String),
    (l.flatMap (fun w => w :: (if to_singular w ≠ w then [to_singular w] else []))).count x
      = l.count x + (l.filter (fun v => to_singular v = x ∧ v ≠ x)).length := by
  intro l x
  induction l with
  | nil => rfl
  | cons w l ih =>
      rw [List.flatMap_cons, List.count_append, ih]
      by_cases hsw : to_singular w = w
      · have hemit : (if to_singular w ≠ w then [to_singular w] else []) = ([] : List String) := by
          simp [hsw]
        have hp : (decide (to_singular w = x ∧ w ≠ x)) = false := by
          simp only [decide_eq_false_iff_not]
          rw [hsw]
          rintro ⟨rfl, hne⟩
          exact hne rfl
        rw [hemit]
        simp only [List.filter_cons, hp, Bool.false_eq_true, if_false, List.count_cons,
          List.count_nil]
        by_cases hwx : w = x
        · simp [hwx]; omega
        · simp [hwx]
      · have hemit : (if to_singular w ≠ w then [to_singular w] else []) = [to_singular w] := by
          simp [hsw]
        rw [hemit]
        by_cases hsx : to_singular w = x
        · have hwx : w ≠ x := fun h => hsw (hsx.trans h.symm)
          have hp : (decide (to_singular w = x ∧ w ≠ x)) = true := by
            simp [hsx, hwx]
          have hb1 : (w == x) = false := beq_eq_false_iff_ne.mpr hwx
          have hb2 : (to_singular w == x) = true := by simp [hsx]
          simp only [List.filter_cons, hp, if_true, List.count_cons, List.count_nil,
            List.length_cons, hb1, hb2, Bool.false_eq_true, if_false]
          omega
        · have hp : (decide (to_singular w = x ∧ w ≠ x)) = false := by
            simp [hsx]
          have hb2 : (to_singular w == x) = false := beq_eq_false_iff_ne.mpr hsx
          simp only [List.filter_cons, hp, Bool.false_eq_true, if_false, List.count_cons,
            List.count_nil, hb2]
          by_cases hwx : w = x
          · simp [hwx]; omega
          · simp [hwx]

theorem count_tokenize (content : String) (x : String) :
    (tokenize content).count x =
      (surfaceWords content).count x +
        ((surfaceWords content).filter (fun v => to_singular v = x ∧ v ≠ x)).length :=
  count_flatMap_singular (surfaceWords content) x

theorem mem_tokenize_of_surface {content : String} {w : String}
    (h : w ∈ surfaceWords content) : w ∈ tokenize content :=
  List.mem_flatMap.mpr ⟨w, h, List.mem_cons_self _ _⟩

theorem singular_mem_tokenize {content : String} {w : String}
    (h : w ∈ surfaceWords content) (hne : to_singular w ≠ w) :
    to_singular w ∈ tokenize content :=
  List.mem_flatMap.mpr ⟨w, h, by simp [hne]⟩

/-- **C9.** For every document, tokenization emits the derived singular of
each non-stopword surface word (when it differs), so the stored frequency
table holds the singular as its own key with count equal to the number of
surface occurrences of forms deriving it plus its verbatim occurrences;
the singular is inserted into the shared trie alongside the surface form,
and ingesting the page indexes the new page id under the singular. -/
theorem c9_singular_token_emission
    (url content : String) (trie : Trie) (e : SearchEngine) (w : String)
    (hw : w ∈ surfaceWords content) (hne : to_singular w ≠ w) :
    lookupAssoc (WebPage.make url content trie).1.wordFrequency (to_singular w) =
      some ((surfaceWords content).count (to_singular w) +
        ((surfaceWords content).filter
          (fun v => to_singular v = to_singular w ∧ v ≠ to_singular w)).length)
    ∧ (WebPage.make url content trie).2.search (to_singular w) = true
    ∧ (WebPage.make url content trie).2.search w = true
    ∧ e.pages.length ∈
        (e.add_page (WebPage.make url content trie).1).index.postings (to_singular w) := by
  have hsmem : to_singular w ∈ tokenize content := singular_mem_tokenize hw hne
  have hfmem : w ∈ (surfaceWords content).filter
      (fun v => to_singular v = to_singular w ∧ v ≠ to_singular w) :=
    List.mem_filter.mpr ⟨hw, by simp [Ne.symm hne]⟩
  have hpos : 0 < (tokenize content).count (to_singular w) := by
    rw [count_tokenize]
    have := List.length_pos.mpr (List.ne_nil_of_mem hfmem)
    omega
  refine ⟨?_, ?_, ?_, ?_⟩
  · show lookupAssoc (buildFreq (tokenize content)) (to_singular w) = _
    rw [lookup_buildFreq_of_pos (tokenize content) (to_singular w) hpos,
      count_tokenize]
  · exact trie_search_foldl_insert_mem (tokenize content) trie (to_singular w) hsmem
  · exact trie_search_foldl_insert_mem (tokenize content) trie w
      (mem_tokenize_of_surface hw)
  · show e.pages.length ∈
      (e.index.add_page ((e.pages ++ [(WebPage.make url content trie).1]).length - 1)
        (tokenize (WebPage.make url content trie).1.content)).postings (to_singular w)
    have hlen : (e.pages ++ [(WebPage.make url content trie).1]).length - 1 = e.pages.length := by
      simp
    rw [hlen]
    exact mem_postings_add_page_self (tokenize content) e.index e.pages.length
      (to_singular w) hsmem

/-- Witness for C9 at the concrete document "cookies cooky" with the
plural "cookies" (derived singular "cooky", one verbatim occurrence). -/
theorem c9_singular_token_emission_witness :
    lookupAssoc (WebPage.make "u" "cookies cooky" Trie.empty).1.wordFrequency
        (to_singular "cookies") =
      some ((surfaceWords "cookies cooky").count (to_singular "cookies") +
        ((surfaceWords "cookies cooky").filter
          (fun v => to_singular v = to_singular "cookies" ∧ v ≠ to_singular "cookies")).length)
    ∧ (WebPage.make "u" "cookies cooky" Trie.empty).2.search (to_singular "cookies") = true
    ∧ (WebPage.make "u" "cookies cooky" Trie.empty).2.search "cookies" = true
    ∧ SearchEngine.emptyEngine.pages.length ∈
        (SearchEngine.emptyEngine.add_page
          (WebPage.make "u" "cookies cooky" Trie.empty).1).index.postings
          (to_singular "cookies") :=
  c9_singular_token_emission "u" "cookies cooky" Trie.empty SearchEngine.emptyEngine
    "cookies" (by decide) (by decide)

/-! ## Ingestion invariant (C6) -/

theorem engineInv_ingest (st : Trie × SearchEngine) (doc : String × String)
    (h : EngineInv st) : EngineInv (ingest st doc) := by
  intro i page k v hget hmem
  have hpage1 : (WebPage.make doc.1 doc.2 st.1).1 =
      ⟨doc.1, doc.2, buildFreq (tokenize doc.2)⟩ := rfl
  have hpage2 : (WebPage.make doc.1 doc.2 st.1).2 =
      (tokenize doc.2).foldl (fun t tok => t.insert tok) st.1 := rfl
  have hpages : (ingest st doc).2.pages =
      st.2.pages ++ [(WebPage.make doc.1 doc.2 st.1).1] := rfl
  have hidx : (ingest st doc).2.index =
      st.2.index.add_page ((st.2.pages ++ [(WebPage.make doc.1 doc.2 st.1).1]).length - 1)
        (tokenize (WebPage.make doc.1 doc.2 st.1).1.content) := rfl
  have hlen : (st.2.pages ++ [(WebPage.make doc.1 doc.2 st.1).1]).length - 1 =
      st.2.pages.length := by simp
  rw [hpages] at hget
  rw [List.getElem?_append] at hget
  by_cases hi : i < st.2.pages.length
  · rw [if_pos hi] at hget
    obtain ⟨htrie, hpost⟩ := h i page k v hget hmem
    constructor
    · exact trie_search_foldl_insert_of (tokenize doc.2) st.1 k htrie
    · show i ∈ (ingest st doc).2.index.postings k
      rw [hidx]
      exact mem_postings_add_page_of_mem _ st.2.index _ k i hpost
  · rw [if_neg hi] at hget
    have hi0 : i - st.2.pages.length = 0 := by
      rcases Nat.lt_or_ge (i - st.2.pages.length) 1 with h1 | h1
      · omega
      · rw [List.getElem?_eq_none (by simpa using h1)] at hget
        cases hget
    rw [hi0] at hget
    simp only [List.getElem?_cons_zero, Option.some.injEq] at hget
    have hieq : i = st.2.pages.length := by
      have : ¬(i - st.2.pages.length ≥ 1) := by omega
      omega
    subst hieq
    rw [← hget, hpage1] at hmem
    have hk : k ∈ tokenize doc.2 := mem_buildFreq_key (tokenize doc.2) k v hmem
    constructor
    · exact trie_search_foldl_insert_mem (tokenize doc.2) st.1 k hk
    · show st.2.pages.length ∈ (ingest st doc).2.index.postings k
      rw [hidx, hlen]
      exact mem_postings_add_page_self _ st.2.index _ k hk

theorem engineInv_foldl : ∀ (docs : List (String × String)) (st : Trie × SearchEngine),
    EngineInv st → EngineInv (docs.foldl ingest st) := by
  intro docs
  induction docs with
  | nil => intro st h; exact h
  | cons d docs ih =>
      intro st h
      rw [List.foldl_cons]
      exact ih (ingest st d) (engineInv_ingest st d h)

/-- **C6 (amended).** After any sequence of document ingestions (with no
intervening or subsequent queries), for every ingested document, every
token in its stored frequency map is `search`-true in the shared Trie and
the document's id is a member of the Inverted Index posting set for that
token.  The original claim's "(and any subsequent queries)" fails on the
code: see the counterexample. -/
theorem c6_round_trip_after_ingestion (docs : List (String × String)) (i : Nat)
    (page : WebPage) (k : String) (v : Nat)
    (hget : (ingestAll docs).2.pages[i]? = some page)
    (hmem : (k, v) ∈ page.wordFrequency) :
    (ingestAll docs).1.search k = true ∧ i ∈ (ingestAll docs).2.index.postings k := by
  have hinv : EngineInv (ingestAll docs) := by
    apply engineInv_foldl
    intro i page k v hget _
    simp [SearchEngine.emptyEngine] at hget
  exact hinv i page k v hget hmem

/-- Witness for C6 at the concrete one-document corpus "engine". -/
theorem c6_round_trip_after_ingestion_witness :
    (ingestAll [("u", "engine")]).1.search "engine" = true ∧
      0 ∈ (ingestAll [("u", "engine")]).2.index.postings "engine" :=
  c6_round_trip_after_ingestion [("u", "engine")] 0 ⟨"u", "engine", [("engine", 1)]⟩
    "engine" 1 (by decide) (by decide)

/-- **C6 counterexample.** After ingesting the single document "engine"
and running `search("engines")`, the document's stored frequency map has
gained the key "engines" (count 0), which is neither in the shared Trie
nor indexed: the structures disagree after a query, refuting the claim's
"(and any subsequent queries)" clause. -/
theorem c6_counterexample :
    ((ingestAll [("u", "engine")]).2.search "engines").pagesAfter.map
        (fun p => p.wordFrequency) = [[("engine", 1), ("engines", 0)]]
    ∧ (ingestAll [("u", "engine")]).1.search "engines" = false
    ∧ (ingestAll [("u", "engine")]).2.index.postings "engines" = [] := by decide

/-! ## Ranking lemmas (C3, C4) -/

theorem keyLe_total (a b : Int × Int × Int) :
    SearchEngine.keyLe a b ∨ SearchEngine.keyLe b a := by
  unfold SearchEngine.keyLe
  omega

theorem keyLe_trans (a b c : Int × Int × Int)
    (h1 : SearchEngine.keyLe a b) (h2 : SearchEngine.keyLe b c) :
    SearchEngine.keyLe a c := by
  unfold SearchEngine.keyLe at h1 h2 ⊢
  omega

theorem mem_bumpAdd_pos {α : Type} [DecidableEq α] :
    ∀ (m : List (α × Nat)) (k : α) (n : Nat) (p : α × Nat), 0 < n →
    (∀ q ∈ m, 0 < q.2) → p ∈ bumpAdd m k n → 0 < p.2 := by
  intro m k n p hn
  induction m with
  | nil =>
      intro _ hp
      simp only [bumpAdd, List.mem_singleton] at hp
      rw [hp]
      exact hn
  | cons q rest ih =>
      obtain ⟨a, b⟩ := q
      intro hm hp
      by_cases hak : a = k
      · subst hak
        simp only [bumpAdd, if_pos rfl] at hp
        rcases List.mem_cons.mp hp with hp1 | hp
        · rw [hp1]
          show 0 < b + n
          omega
        · exact hm p (List.mem_cons_of_mem _ hp)
      · simp only [bumpAdd, if_neg hak] at hp
        rcases List.mem_cons.mp hp with hp1 | hp
        · rw [hp1]
          exact hm (a, b) (List.mem_cons_self _ _)
        · exact ih (fun q hq => hm q (List.mem_cons_of_mem _ hq)) hp

theorem tokenStep_matchCounts (tok : String)
    (st : List (Nat × Nat) × List (Nat × Nat) × List WebPage) (pid : Nat) :
    (SearchEngine.tokenStep tok st pid).1 = bumpAdd st.1 pid 1 := by
  unfold SearchEngine.tokenStep
  cases st.2.2.get? pid <;> rfl

theorem matchCounts_foldl_postings_pos :
    ∀ (pids : List Nat) (tok : String)
      (st : List (Nat × Nat) × List (Nat × Nat) × List WebPage),
    (∀ p ∈ st.1, 0 < p.2) →
    ∀ p ∈ (pids.foldl (SearchEngine.tokenStep tok) st).1, 0 < p.2 := by
  intro pids
  induction pids with
  | nil => intro tok st h; exact h
  | cons pid pids ih =>
      intro tok st h
      rw [List.foldl_cons]
      apply ih
      rw [tokenStep_matchCounts]
      intro p hp
      exact mem_bumpAdd_pos st.1 pid 1 p (by omega) h hp

theorem matchCounts_pos :
    ∀ (qts : List String) (idx : InvertedIndex)
      (st : List (Nat × Nat) × List (Nat × Nat) × List WebPage),
    (∀ p ∈ st.1, 0 < p.2) →
    ∀ p ∈ (qts.foldl (fun st tok => (idx.search tok).foldl
        (SearchEngine.tokenStep tok) st) st).1, 0 < p.2 := by
  intro qts
  induction qts with
  | nil => intro idx st h; exact h
  | cons tok qts ih =>
      intro idx st h
      rw [List.foldl_cons]
      exact ih idx _ (matchCounts_foldl_postings_pos (idx.search tok) tok st h)

theorem searchLoop_no_match :
    ∀ (qts : List String) (idx : InvertedIndex) (pages : List WebPage),
    (∀ tok ∈ qts, idx.search tok = []) →
    SearchEngine.searchLoop idx qts pages = ([], [], pages) := by
  have haux : ∀ (qts : List String) (idx : InvertedIndex)
      (st : List (Nat × Nat) × List (Nat × Nat) × List WebPage),
      (∀ tok ∈ qts, idx.search tok = []) →
      qts.foldl (fun st tok => (idx.search tok).foldl
        (SearchEngine.tokenStep tok) st) st = st := by
    intro qts
    induction qts with
    | nil => intro idx st _; rfl
    | cons tok qts ih =>
        intro idx st h
        rw [List.foldl_cons, h tok (List.mem_cons_self _ _), List.foldl_nil]
        exact ih idx st (fun t ht => h t (List.mem_cons_of_mem _ ht))
  intro qts idx pages h
  exact haux qts idx ([], [], pages) h

/-- **C3 (amended).** For every engine state and query, `search` ranks
exactly the documents with a positive `matchCount`: the output is a
permutation of the match-count accumulator, every accumulated count is
positive, the output is sorted by the descending lexicographic key
(exact-match flag, matchCount, frequencySum), and ties keep the order in
which documents were first encountered during query-token processing
(stability) — not necessarily smaller document id first, see the
counterexample.  The output is a function of the engine state and the
query (the model fixes the posting-set iteration order). -/
theorem c3_ranking_order (e : SearchEngine) (q : String) :
    List.Sorted (SearchEngine.rankRel (e.search q).exactMatches (e.search q).freqSums)
      (e.search q).sortedResults
    ∧ (e.search q).sortedResults.Perm (e.search q).matchCounts
    ∧ (∀ p ∈ (e.search q).matchCounts, 0 < p.2)
    ∧ (∀ a b : Nat × Nat,
        SearchEngine.rankRel (e.search q).exactMatches (e.search q).freqSums a b →
        List.Sublist [a, b] (e.search q).matchCounts →
        List.Sublist [a, b] (e.search q).sortedResults) := by
  haveI htot : IsTotal (Nat × Nat)
      (SearchEngine.rankRel (e.search q).exactMatches (e.search q).freqSums) :=
    ⟨fun a b => keyLe_total _ _⟩
  haveI htrans : IsTrans (Nat × Nat)
      (SearchEngine.rankRel (e.search q).exactMatches (e.search q).freqSums) :=
    ⟨fun a b c h1 h2 => keyLe_trans _ _ _ h1 h2⟩
  have hsr : (e.search q).sortedResults = (e.search q).matchCounts.insertionSort
      (SearchEngine.rankRel (e.search q).exactMatches (e.search q).freqSums) := rfl
  refine ⟨?_, ?_, ?_, ?_⟩
  · rw [hsr]; exact List.sorted_insertionSort _ _
  · rw [hsr]; exact List.perm_insertionSort _ _
  · exact matchCounts_pos (tokenize q) e.index ([], [], e.pages) (by intro p hp; cases hp)
  · intro a b hab hsub
    rw [hsr]
    exact List.pair_sublist_insertionSort hab hsub

/-- Witness for C3's stability clause at a tie: in the two-document corpus
cat/dog with query "dog cat", both candidates tie on all three keys and
the first-encountered document (id 1) stays first. -/
theorem c3_ranking_order_witness :
    List.Sublist [(1, 1), (0, 1)]
      ((ingestAll [("a", "cat"), ("b", "dog")]).2.search "dog cat").sortedResults := by
  have h := c3_ranking_order (ingestAll [("a", "cat"), ("b", "dog")]).2 "dog cat"
  exact h.2.2.2 (1, 1) (0, 1) (by decide) (by decide)

/-- **C3 counterexample.** In the two-document corpus cat/dog, the query
"dog cat" produces a full tie on (exact flag, matchCount, frequencySum)
between documents 1 and 0, and the ranked output is [(1, 1), (0, 1)] —
the larger id first (first-encounter order), refuting the claim that ties
are broken by smaller document id. -/
theorem c3_counterexample :
    ((ingestAll [("a", "cat"), ("b", "dog")]).2.search "dog cat").sortedResults
        = [(1, 1), (0, 1)]
    ∧ SearchEngine.sortKey
        ((ingestAll [("a", "cat"), ("b", "dog")]).2.search "dog cat").exactMatches
        ((ingestAll [("a", "cat"), ("b", "dog")]).2.search "dog cat").freqSums (1, 1)
      = SearchEngine.sortKey
        ((ingestAll [("a", "cat"), ("b", "dog")]).2.search "dog cat").exactMatches
        ((ingestAll [("a", "cat"), ("b", "dog")]).2.search "dog cat").freqSums (0, 1)
    ∧ ((ingestAll [("a", "cat"), ("b", "dog")]).2.search "dog cat").sortedResults
        ≠ [(0, 1), (1, 1)] := by decide

/-- **C4.** A query none of whose tokens matches any document (in
particular a query of stopwords only, whose tokenization is empty)
produces an empty ranked sequence and an empty match-count accumulator —
a normal value, not a fault — even when the normalized query
exact-matches some document's content. -/
theorem c4_no_match_empty (e : SearchEngine) (q : String)
    (h : ∀ tok ∈ tokenize q, e.index.search tok = []) :
    (e.search q).sortedResults = [] ∧ (e.search q).matchCounts = [] := by
  have hloop : SearchEngine.searchLoop e.index (tokenize q) e.pages =
      ([], [], e.pages) := searchLoop_no_match (tokenize q) e.index e.pages h
  constructor
  · show ((SearchEngine.searchLoop e.index (tokenize q) e.pages).1.insertionSort _) = []
    rw [hloop]
    rfl
  · show (SearchEngine.searchLoop e.index (tokenize q) e.pages).1 = []
    rw [hloop]

/-- Witness for C4: the all-stopword query "the a in" exact-matches the
single document "Honor the a in code" (exact-match list [0]) yet yields
an empty ranked result. -/
theorem c4_no_match_empty_witness :
    SearchEngine.has_exact_match "Honor the a in code" "the a in" = true
    ∧ ((ingestAll [("u", "Honor the a in code")]).2.search "the a in").exactMatches = [0]
    ∧ ((ingestAll [("u", "Honor the a in code")]).2.search "the a in").sortedResults = []
    ∧ ((ingestAll [("u", "Honor the a in code")]).2.search "the a in").matchCounts = [] := by
  have h := c4_no_match_empty (ingestAll [("u", "Honor the a in code")]).2 "the a in"
    (by decide)
  exact ⟨by decide, by decide, h.1, h.2⟩

/-! ## Query-phase mutation (C1) and the Main-section end-to-end query (C2) -/

/-- **C1 (code bug).** `search` is not read-only: after ingesting the
single document "engine", the query "engines" matches the document via
the derived singular, and the `defaultdict` read
`self.pages[pageId].wordFrequency[token]` inserts the missing query token
as a new zero-count key into the document's stored frequency map — the
page list after the query differs from the one before, refuting the
frame property the spec states for the query phase. -/
theorem c1_search_mutates_frequency_table :
    (ingestAll [("u", "engine")]).2.pages.map (fun p => p.wordFrequency)
        = [[("engine", 1)]]
    ∧ ((ingestAll [("u", "engine")]).2.search "engines").pagesAfter.map
        (fun p => p.wordFrequency) = [[("engine", 1), ("engines", 0)]]
    ∧ ((ingestAll [("u", "engine")]).2.search "engines").pagesAfter
        ≠ (ingestAll [("u", "engine")]).2.pages := by decide

/-- **C2 counterexample.** For the Main-section corpus and the query
"algorithm", each returned document's frequencySum is 1, not 0: the
stored frequency-table count of the literal token "algorithm" is 1 in
documents 1 and 2, because tokenization emitted the derived singular of
"algorithms" into the table (the claim's "which is 0" is false). -/
theorem c2_counterexample :
    (mainState.2.search "algorithm").freqSums = [(1, 1), (2, 1)]
    ∧ mainState.2.pages.map (fun p => freqCount p.wordFrequency "algorithm")
        = [0, 1, 1, 0]
    ∧ (mainState.2.search "algorithm").freqSums ≠ [(1, 0), (2, 0)] := by decide

/-- **C2 (amended).** After ingesting the four Main-section documents,
searching "algorithm" returns exactly the two documents whose content
contains "algorithms" (ids 1 and 2, each with matchCount 1), and each
frequencySum equals that document's stored frequency-table count for the
literal token "algorithm" — which is 1, because tokenization also stores
the derived singular of "algorithms", although "algorithm" never appears
verbatim in any raw content. -/
theorem c2_algorithm_query :
    (mainState.2.search "algorithm").sortedResults = [(1, 1), (2, 1)]
    ∧ (mainState.2.search "algorithm").freqSums = [(1, 1), (2, 1)]
    ∧ (mainState.2.search "algorithm").exactMatches = [1, 2]
    ∧ mainState.2.pages.map (fun p => freqCount p.wordFrequency "algorithm")
        = [0, 1, 1, 0]
    ∧ mainState.2.pages.map
        (fun p => SearchEngine.has_exact_match p.content "algorithms")
        = [false, true, true, false] := by decide

end SearchEngineModel
